import Mathlib

/-!
Shallow embedding of the code-navigation indexer and query engine
(Rust sources under `src/`): the indexer (`file.rs`), the orchestrator
(`indexes.rs`), and the searcher (`search.rs`), together with proofs of
the specification claims about them.

Modelling conventions:
* Text is a list of Unicode code points (`Str := List Nat`); byte offsets
  are computed through the UTF-8 width of each code point, so Rust byte
  slicing and `char`-based arithmetic can both be expressed.
* Raw file contents are lists of bytes (`List Nat`, each < 256).
* Machine integer casts (`i as u32`) are `% 2^32`.
* Fallible Rust functions returning `anyhow::Result` become `Except String`.
* External collaborators that are not part of this repository (tantivy
  retrieval and ranking, the tree-sitter extractor, the `ignore` crate
  pattern compiler, OS path canonicalization) are either parameters of the
  embedded functions or definitions whose doc comment starts with
  `Modelled from the spec:`.
-/

namespace CodeNav

/-- Text as a list of Unicode code points. -/
abbrev Str := List Nat

/-- Convert a Lean string literal to the code-point model. -/
def str (s : String) : Str := s.toList.map Char.toNat

/-- UTF-8 byte width of one code point (`char::len_utf8` in Rust). -/
def u8len (c : Nat) : Nat :=
  if c < 128 then 1 else if c < 2048 then 2 else if c < 65536 then 3 else 4

/-- UTF-8 byte length of a text (`str::len` in Rust). -/
def utf8Len (s : Str) : Nat := (s.map u8len).sum

/-- Rust byte slicing `&s[a..b]`: the code points of `s` whose byte
offsets lie in `[a, b)`, starting from byte offset `off`. -/
def sliceBytesAux (s : Str) (a b off : Nat) : Str :=
  match s with
  | [] => []
  | c :: rest =>
    if b ≤ off then []
    else if a ≤ off then c :: sliceBytesAux rest a b (off + u8len c)
    else sliceBytesAux rest a b (off + u8len c)

/-- Rust byte slicing `&s[a..b]` from offset 0. -/
def sliceBytes (s : Str) (a b : Nat) : Str := sliceBytesAux s a b 0

/-- `str::find(pattern)` helper: byte offset of the first occurrence of
`q` in `l`, where `off` is the byte offset already consumed. -/
def findSubAux (l q : Str) (off : Nat) : Option Nat :=
  if q.isPrefixOf l then some off
  else
    match l with
    | [] => none
    | c :: rest => findSubAux rest q (off + u8len c)

/-- Rust `str::find(&q)`: byte offset of the first occurrence of `q`. -/
def findSub (l q : Str) : Option Nat := findSubAux l q 0

/-- Rust `str::contains(&q)`. -/
def containsSub (l q : Str) : Bool := (findSub l q).isSome

/-- ASCII lowercasing of one code point; models Rust lowercasing
restricted to the ASCII range (uppercase letters 65..90 map to 97..122,
everything else is unchanged). -/
def lowerChar (c : Nat) : Nat := if 65 ≤ c ∧ c ≤ 90 then c + 32 else c

/-- Rust `str::to_lowercase()` in the ASCII-restricted model. -/
def rustLower (s : Str) : Str := s.map lowerChar

/-- The query contains no (ASCII) uppercase letters. -/
def noUppercase (q : Str) : Bool := q.all fun c => !(decide (65 ≤ c ∧ c ≤ 90))

/-- `u32::to_le_bytes` of `n` (assumes `n < 2^32`). -/
def leBytes32 (n : Nat) : List Nat :=
  [n % 256, n / 256 % 256, n / 65536 % 256, n / 16777216 % 256]

/-- `bytes.chunks_exact(4).map(u32::from_le_bytes)` of `search.rs`:
decode a byte blob into 32-bit little-endian words, dropping any
remainder shorter than 4 bytes. -/
def decodeU32s : List Nat → List Nat
  | b0 :: b1 :: b2 :: b3 :: rest =>
    (b0 + 256 * b1 + 65536 * b2 + 16777216 * b3) :: decodeU32s rest
  | _ => []

/-! ### SHA-256 (`sha2` crate as used in `file.rs`)

`file.rs` computes `format!("{:x}", Sha256::digest(content))`; the digest
is embedded here in full over byte lists, with 32-bit words as `Nat`
reduced `% 2^32`. -/

/-- Truncate to a 32-bit word. -/
def w32 (x : Nat) : Nat := x % 4294967296

/-- Right rotation of a 32-bit word by `n` bits. -/
def rotr (n x : Nat) : Nat := (x >>> n) + (x % (2 ^ n)) * (2 ^ (32 - n))

/-- Bitwise complement within 32 bits. -/
def not32 (x : Nat) : Nat := x ^^^ 4294967295

/-- SHA-256 round constants. -/
def shaK : List Nat :=
  [1116352408, 1899447441, 3049323471, 3921009573, 961987163, 1508970993,
   2453635748, 2870763221, 3624381080, 310598401, 607225278, 1426881987,
   1925078388, 2162078206, 2614888103, 3248222580, 3835390401, 4022224774,
   264347078, 604807628, 770255983, 1249150122, 1555081692, 1996064986,
   2554220882, 2821834349, 2952996808, 3210313671, 3336571891, 3584528711,
   113926993, 338241895, 666307205, 773529912, 1294757372, 1396182291,
   1695183700, 1986661051, 2177026350, 2456956037, 2730485921, 2820302411,
   3259730800, 3345764771, 3516065817, 3600352804, 4094571909, 275423344,
   430227734, 506948616, 659060556, 883997877, 958139571, 1322822218,
   1537002063, 1747873779, 1955562222, 2024104815, 2227730452, 2361852424,
   2428436474, 2756734187, 3204031479, 3329325298]

/-- SHA-256 initial hash values. -/
def shaH0 : List Nat :=
  [1779033703, 3144134277, 1013904242, 2773480762,
   1359893119, 2600822924, 528734635, 1541459225]

/-- 64-bit big-endian byte encoding of the message bit length. -/
def beBytes64 (n : Nat) : List Nat :=
  [n / 2 ^ 56 % 256, n / 2 ^ 48 % 256, n / 2 ^ 40 % 256, n / 2 ^ 32 % 256,
   n / 2 ^ 24 % 256, n / 2 ^ 16 % 256, n / 2 ^ 8 % 256, n % 256]

/-- SHA-256 message padding. -/
def shaPad (msg : List Nat) : List Nat :=
  msg ++ 128 :: List.replicate ((119 - msg.length % 64) % 64) 0 ++ beBytes64 (8 * msg.length)

/-- Split a byte list into successive 64-byte blocks; the fuel argument
(first) bounds the number of blocks and keeps the recursion structural. -/
def shaBlocksFuel : Nat → List Nat → List (List Nat)
  | 0, _ => []
  | _, [] => []
  | fuel + 1, b :: rest => (b :: rest).take 64 :: shaBlocksFuel fuel ((b :: rest).drop 64)

/-- Split a byte list into successive 64-byte blocks. -/
def shaBlocks (l : List Nat) : List (List Nat) := shaBlocksFuel l.length l

/-- Big-endian 32-bit words from a byte list. -/
def beWords : List Nat → List Nat
  | b0 :: b1 :: b2 :: b3 :: rest =>
    (((b0 * 256 + b1) * 256 + b2) * 256 + b3) :: beWords rest
  | _ => []

/-- Message-schedule small sigma 0. -/
def ssig0 (x : Nat) : Nat := rotr 7 x ^^^ rotr 18 x ^^^ (x >>> 3)

/-- Message-schedule small sigma 1. -/
def ssig1 (x : Nat) : Nat := rotr 17 x ^^^ rotr 19 x ^^^ (x >>> 10)

/-- Extend the 16 block words by `k` further schedule words. -/
def extendW (ws : List Nat) : Nat → List Nat
  | 0 => ws
  | k + 1 =>
    let n := ws.length
    let next := w32 (ws.getD (n - 16) 0 + ssig0 (ws.getD (n - 15) 0) +
      ws.getD (n - 7) 0 + ssig1 (ws.getD (n - 2) 0))
    extendW (ws ++ [next]) k

/-- The 64-entry message schedule of one block. -/
def msgSchedule (block : List Nat) : List Nat := extendW (beWords block) 48

/-- Working state of the SHA-256 compression loop. -/
structure ShaState where
  a : Nat
  b : Nat
  c : Nat
  d : Nat
  e : Nat
  f : Nat
  g : Nat
  h : Nat

/-- One round of the SHA-256 compression loop. -/
def shaRound (st : ShaState) (kw : Nat × Nat) : ShaState :=
  let s1 := rotr 6 st.e ^^^ rotr 11 st.e ^^^ rotr 25 st.e
  let ch := (st.e &&& st.f) ^^^ (not32 st.e &&& st.g)
  let t1 := w32 (st.h + s1 + ch + kw.1 + kw.2)
  let s0 := rotr 2 st.a ^^^ rotr 13 st.a ^^^ rotr 22 st.a
  let maj := (st.a &&& st.b) ^^^ (st.a &&& st.c) ^^^ (st.b &&& st.c)
  let t2 := w32 (s0 + maj)
  ⟨w32 (t1 + t2), st.a, st.b, st.c, w32 (st.d + t1), st.e, st.f, st.g⟩

/-- Compress one 64-byte block into the running hash values. -/
def shaCompress (hs : List Nat) (block : List Nat) : List Nat :=
  let ws := msgSchedule block
  let st0 : ShaState :=
    ⟨hs.getD 0 0, hs.getD 1 0, hs.getD 2 0, hs.getD 3 0,
     hs.getD 4 0, hs.getD 5 0, hs.getD 6 0, hs.getD 7 0⟩
  let st := (shaK.zip ws).foldl shaRound st0
  [w32 (hs.getD 0 0 + st.a), w32 (hs.getD 1 0 + st.b), w32 (hs.getD 2 0 + st.c),
   w32 (hs.getD 3 0 + st.d), w32 (hs.getD 4 0 + st.e), w32 (hs.getD 5 0 + st.f),
   w32 (hs.getD 6 0 + st.g), w32 (hs.getD 7 0 + st.h)]

/-- SHA-256 of a byte list, as eight 32-bit words. -/
def sha256Words (msg : List Nat) : List Nat :=
  (shaBlocks (shaPad msg)).foldl shaCompress shaH0

/-- One lowercase hexadecimal digit as a code point. -/
def hexDigit (n : Nat) : Nat := if n < 10 then 48 + n else 87 + n

/-- Eight lowercase hex digits of a 32-bit word. -/
def hex8 (n : Nat) : Str :=
  [hexDigit (n / 16 ^ 7 % 16), hexDigit (n / 16 ^ 6 % 16), hexDigit (n / 16 ^ 5 % 16),
   hexDigit (n / 16 ^ 4 % 16), hexDigit (n / 16 ^ 3 % 16), hexDigit (n / 16 ^ 2 % 16),
   hexDigit (n / 16 % 16), hexDigit (n % 16)]

/-- The lowercase hexadecimal formatting of the digest: the hex SHA-256
digest of a byte list, as used by `traverse_and_index_files`. -/
def sha256hex (msg : List Nat) : Str := (sha256Words msg).flatMap hex8

/-! ### UTF-8 decoding (`String::from_utf8` in `traverse_and_index_files`) -/

/-- A UTF-8 continuation byte. -/
def isCont (b : Nat) : Bool := 128 ≤ b && b < 192

/-- Strict UTF-8 decoding with structural fuel (first argument, an upper
bound on the number of decoded code points): models
`String::from_utf8(bytes)`, rejecting truncated sequences, overlong
encodings, surrogates and code points above 0x10FFFF. -/
def utf8DecodeFuel : Nat → List Nat → Option (List Nat)
  | 0, [] => some []
  | 0, _ :: _ => none
  | _ + 1, [] => some []
  | fuel + 1, b0 :: rest =>
    if b0 < 128 then (utf8DecodeFuel fuel rest).map (b0 :: ·)
    else if 194 ≤ b0 && b0 ≤ 223 then
      match rest with
      | b1 :: r =>
        if isCont b1 then (utf8DecodeFuel fuel r).map (((b0 - 192) * 64 + (b1 - 128)) :: ·)
        else none
      | [] => none
    else if 224 ≤ b0 && b0 ≤ 239 then
      match rest with
      | b1 :: b2 :: r =>
        if isCont b1 && isCont b2 then
          let cp := (b0 - 224) * 4096 + (b1 - 128) * 64 + (b2 - 128)
          if 2048 ≤ cp && !(55296 ≤ cp && cp ≤ 57343) then
            (utf8DecodeFuel fuel r).map (cp :: ·)
          else none
        else none
      | _ => none
    else if 240 ≤ b0 && b0 ≤ 244 then
      match rest with
      | b1 :: b2 :: b3 :: r =>
        if isCont b1 && isCont b2 && isCont b3 then
          let cp := (b0 - 240) * 262144 + (b1 - 128) * 4096 + (b2 - 128) * 64 + (b3 - 128)
          if 65536 ≤ cp && cp ≤ 1114111 then (utf8DecodeFuel fuel r).map (cp :: ·)
          else none
        else none
      | _ => none
    else none

/-- `String::from_utf8(bytes)`: code points on success, `none` when the
byte list is not valid UTF-8 (the indexer skips such files). -/
def utf8Decode (bytes : List Nat) : Option (List Nat) :=
  utf8DecodeFuel bytes.length bytes

/-! ### `line_end_indices` construction (`file.rs` lines 241-249) -/

/-- Byte offsets of every newline code point, starting at offset `off`:
models `content_str.match_indices(given newline)`. -/
def newlinePositionsAux : Str → Nat → List Nat
  | [], _ => []
  | c :: rest, off =>
    if c = 10 then off :: newlinePositionsAux rest (off + u8len c)
    else newlinePositionsAux rest (off + u8len c)

/-- Byte offsets of every newline in the content. -/
def newlinePositions (content : Str) : List Nat := newlinePositionsAux content 0

/-- The `line_end_indices` byte blob written by `traverse_and_index_files`:
little-endian `u32` bytes of every newline offset (cast `as u32`),
followed by the bytes of the summed UTF-8 length of the content. -/
def buildLineEndIndices (content : Str) : List Nat :=
  (newlinePositions content).flatMap (fun i => leBytes32 (w32 i)) ++ leBytes32 (w32 (utf8Len content))

/-! ### Indexer data model (`file.rs`) -/

/-- A symbol byte range inside a scope graph.
Modelled from the spec: the scope-graph node payload of the missing
`intelligence` module, reduced to the byte range that
`traverse_and_index_files` slices out of the content
(`content_str[sym.range.start.byte..sym.range.end.byte]`). -/
structure SymRange where
  startByte : Nat
  endByte : Nat
deriving DecidableEq, Repr

/-- Modelled from the spec: the per-file scope graph produced by the
missing `intelligence` module, reduced to the list of symbol ranges that
the indexer reads back through `SymbolLocations::list`. -/
structure ScopeGraph where
  syms : List SymRange
deriving DecidableEq, Repr

/-- Modelled from the spec: `SymbolLocations` of the missing `symbol`
module, either a serialized tree-sitter scope graph or the empty
sentinel used when extraction fails. -/
inductive SymbolLocations where
  | empty : SymbolLocations
  | treeSitter (g : ScopeGraph) : SymbolLocations
deriving DecidableEq, Repr

/-- The symbol ranges of a scope graph (`SymbolLocations::list`). -/
def SymbolLocations.list : SymbolLocations → List SymRange
  | .empty => []
  | .treeSitter g => g.syms

/-- A regular file seen by the tree walk. Paths are taken already
canonical with forward slashes: `canonicalize()` and the backslash
replacement of `file.rs` are the identity on them. -/
structure FsFile where
  path : Str
  bytes : List Nat
deriving DecidableEq, Repr

/-- One stored document with the eight schema fields of `schema.rs`
(minus the untokenized copies tantivy keeps for itself);
`line_end_indices` is the raw byte blob. -/
structure IndexedDoc where
  path : Str
  content : Str
  content_insensitive : Str
  symbol_locations : SymbolLocations
  symbols : Str
  line_end_indices : List Nat
  lang : Str
  hash : Str
deriving DecidableEq, Repr

/-- A tantivy write operation issued by the indexer. -/
inductive WriteOp where
  | deleteTerm (path : Str) : WriteOp
  | addDocument (doc : IndexedDoc) : WriteOp
deriving DecidableEq, Repr

/-- External collaborators of the indexer: language detection from a
path (`TSLanguage::from_extension` composed with extension lookup, from
the missing `intelligence` module) and tree-sitter scope-graph
extraction (`TreeSitterFile::try_build` then `scope_graph`, `none` on
failure). -/
structure ExternalFns where
  detectLang : Str → Str
  extract : Str → Str → Option ScopeGraph

/-- Assemble the document written by `traverse_and_index_files`
(the `tantivy::doc!` call): dedup of the symbol surface texts models the
`HashSet` collection with first-occurrence order. -/
def mkIndexedDoc (ext : ExternalFns) (pathStr content hash langStr : Str) : IndexedDoc :=
  let symLocs : SymbolLocations :=
    match ext.extract content langStr with
    | some g => .treeSitter g
    | none => .empty
  let symbols :=
    List.intercalate [10]
      ((symLocs.list.map fun r => sliceBytes content r.startByte r.endByte).dedup)
  { path := pathStr
    content := content
    content_insensitive := rustLower content
    symbol_locations := symLocs
    symbols := symbols
    line_end_indices := buildLineEndIndices content
    lang := langStr
    hash := hash }

/-- First-match association lookup, modelling the `existing_docs`
`HashMap` reads (paths are unique, so first match and hash-map lookup
agree). -/
def lookupPath (p : Str) : List (Str × Str) → Option Str
  | [] => none
  | e :: rest => if e.1 = p then some e.2 else lookupPath p rest

/-- The write operations issued after the skip decision of
`traverse_and_index_files`: language detection, plaintext skip,
extraction and document assembly. -/
def indexFileRest (ext : ExternalFns) (pathStr content hash : Str) : List WriteOp :=
  let langStr := ext.detectLang pathStr
  if langStr = str "plaintext" then []
  else [.addDocument (mkIndexedDoc ext pathStr content hash langStr)]

/-- The write operations issued for one regular file by
`traverse_and_index_files` (lines 187-268): UTF-8 check, content hash,
`existing_docs` lookup with skip on equal hash and delete-by-path-term
on changed hash, then the add. -/
def indexFile (ext : ExternalFns) (existing : List (Str × Str)) (f : FsFile) : List WriteOp :=
  match utf8Decode f.bytes with
  | none => []
  | some content =>
    let hash := sha256hex f.bytes
    match lookupPath f.path existing with
    | some existingHash =>
      if existingHash = hash then []
      else .deleteTerm f.path :: indexFileRest ext f.path content hash
    | none => indexFileRest ext f.path content hash

/-- One indexing pass over the files discovered by the walk (each path
visited once, in walk order). -/
def indexPass (ext : ExternalFns) (existing : List (Str × Str)) (files : List FsFile) : List WriteOp :=
  files.flatMap (indexFile ext existing)

/-- Apply one write operation to the committed store (delete removes
every document carrying the path term, add appends). -/
def applyOp (store : List IndexedDoc) : WriteOp → List IndexedDoc
  | .deleteTerm p => store.filter fun d => d.path ≠ p
  | .addDocument d => store ++ [d]

/-- Apply a list of write operations in order. -/
def applyOps (store : List IndexedDoc) (ops : List WriteOp) : List IndexedDoc :=
  ops.foldl applyOp store

/-- The path-to-hash snapshot taken by `load_existing_docs` from the
committed store at session start. -/
def existingDocsOf (store : List IndexedDoc) : List (Str × Str) :=
  store.map fun d => (d.path, d.hash)

/-! ### Searcher: text search (`search.rs` lines 59-154) -/

/-- The wire shape returned by `text_search` and `fuzzy_search`. -/
structure SearchResult where
  path : Str
  line_number : Nat
  column : Nat
  context : Str
deriving DecidableEq, Repr

/-- The 3-lines-before / 3-lines-after context window around matched
line `ln`, drawn from the original content through the decoded
`line_end_indices` (lines 130-140 of `search.rs`). -/
def contextOf (newContent : Str) (les : List Nat) (ln : Nat) : Str :=
  let cstart := if 3 ≤ ln then ln - 3 else 0
  let cend := min (ln + 3) (les.length - 1)
  let sub := (les.drop cstart).take (cend + 1 - cstart)
  List.intercalate [10] ((sub.zip sub.tail).map fun p => sliceBytes newContent p.1 p.2)

/-- The per-document matching loop of `text_search` (lines 123-150):
enumerate adjacent pairs of `line_end_indices` offsets, slice the chosen
field, and for every window containing the query emit a result whose
`line_number` is the window index plus 2 and whose `column` is the byte
offset of the match inside the sliced window. -/
def searchDocLines (q path contentField newContent : Str) (les : List Nat) : List SearchResult :=
  ((les.zip les.tail).enum).filterMap fun iw =>
    let line := sliceBytes contentField iw.2.1 iw.2.2
    match findSub line q with
    | none => none
    | some col =>
      some { path := path
             line_number := iw.1 + 2
             column := col
             context := contextOf newContent les (iw.1 + 2) }

/-- The field text chosen by `text_search` for matching. -/
def fieldText (caseSensitive : Bool) (d : IndexedDoc) : Str :=
  if caseSensitive then d.content else d.content_insensitive

/-- Modelled from the spec: tantivy retrieval (query parse plus
`TopDocs::with_limit(10)` by relevance) over the chosen field, reduced
to the documents whose chosen field contains the query, first ten in
store order. -/
def retrieveTop10 (docs : List IndexedDoc) (caseSensitive : Bool) (q : Str) : List IndexedDoc :=
  (docs.filter fun d => containsSub (fieldText caseSensitive d) q).take 10

/-- `Searcher::text_search`: choose field and query casing (lowercasing
the query for the insensitive field), retrieve the top documents, then
run the per-document line loop; context always comes from the original
`content` field. -/
def text_search (docs : List IndexedDoc) (q : Str) (caseSensitive : Bool) : List SearchResult :=
  let qq := if caseSensitive then q else rustLower q
  (retrieveTop10 docs caseSensitive qq).flatMap fun d =>
    searchDocLines qq d.path (fieldText caseSensitive d) d.content (decodeU32s d.line_end_indices)

/-! ### Ignore resolver (`GitignoreManager`, `file.rs` lines 97-157) -/

/-- The three outcomes of `Gitignore::matched` in the `ignore` crate. -/
inductive GitMatch where
  | ignoreMatch : GitMatch
  | whitelistMatch : GitMatch
  | noMatch : GitMatch
deriving DecidableEq, Repr

/-- One compiled `.gitignore`: its directory (as path components) and
its compiled matcher over relative path components. The matcher stands
for the external `ignore` crate pattern engine. -/
structure GitignoreEntry where
  dir : List Str
  matcher : List Str → GitMatch

/-- Stable insertion of an entry into a depth-descending list
(inserted after entries of equal or greater depth). -/
def insertByDepth (e : GitignoreEntry) : List GitignoreEntry → List GitignoreEntry
  | [] => [e]
  | x :: xs =>
    if x.dir.length < e.dir.length then e :: x :: xs else x :: insertByDepth e xs

/-- The depth-descending stable sort applied by `load_gitignores`
(`sort_by` comparing component counts in reverse). -/
def sortByDepthDesc : List GitignoreEntry → List GitignoreEntry
  | [] => []
  | e :: es => insertByDepth e (sortByDepthDesc es)

/-- `GitignoreManager::is_ignored`: scan the sorted list; an entry whose
directory is a component prefix of the path consults its matcher;
`Ignore` decides true, `Whitelist` decides false, `None` continues; no
decision means false. -/
def is_ignored (entries : List GitignoreEntry) (p : List Str) : Bool :=
  match entries with
  | [] => false
  | e :: rest =>
    if e.dir.isPrefixOf p then
      match e.matcher (p.drop e.dir.length) with
      | .ignoreMatch => true
      | .whitelistMatch => false
      | .noMatch => is_ignored rest p
    else is_ignored rest p

/-- An entry decides the path: its directory is a prefix and its matcher
gives a verdict other than `None`. -/
def decidesPath (e : GitignoreEntry) (p : List Str) : Bool :=
  e.dir.isPrefixOf p &&
    (match e.matcher (p.drop e.dir.length) with
     | .noMatch => false
     | _ => true)

/-- The spec wording of the ignore decision: the first entry in the list
that decides the path supplies the verdict, and no deciding entry means
not ignored. -/
def specIgnoreDecision (entries : List GitignoreEntry) (p : List Str) : Bool :=
  match entries.find? (fun e => decidesPath e p) with
  | some e =>
    match e.matcher (p.drop e.dir.length) with
    | .ignoreMatch => true
    | _ => false
  | none => false

/-! ### `Searcher::line_word_to_byte_range` (`search.rs` lines 330-366) -/

/-- The starting byte offset of 1-based line `ln`: 0 for the first line,
otherwise one past the previous line-end offset. -/
def lineStartByte (les : List Nat) (ln : Nat) : Nat :=
  if ln = 1 then 0 else les.getD (ln - 2) 0 + 1

/-- The text of 1-based line `ln` as sliced by
`line_word_to_byte_range` (exclusive of its terminating offset). -/
def lineSlice (content : Str) (les : List Nat) (ln : Nat) : Str :=
  sliceBytes content (lineStartByte les ln) (les.getD (ln - 1) 0)

/-- `Searcher::line_word_to_byte_range`: validate the 1-based line
number against the decoded `line_end_indices`, slice the line, validate
the character word span, and sum UTF-8 widths over the line prefixes. -/
def line_word_to_byte_range (content : Str) (les : List Nat)
    (ln wordStart wordEnd : Nat) : Except String (Nat × Nat) :=
  if ln = 0 ∨ les.length < ln then .error "Invalid line number"
  else
    let startOfLine := lineStartByte les ln
    let line := lineSlice content les ln
    if wordEnd ≤ wordStart ∨ line.length < wordEnd then .error "Invalid word indices"
    else .ok (startOfLine + utf8Len (line.take wordStart),
              startOfLine + utf8Len (line.take wordEnd))

/-! ### `Searcher::token_info` (`search.rs` lines 274-327 and 373-413) -/

/-- The in-memory document materialized by `load_all_documents`. -/
structure ContentDocument where
  content : Str
  lang : Option Str
  relative_path : Str
  line_end_indices : List Nat
  symbol_locations : SymbolLocations

instance : Inhabited ContentDocument :=
  ⟨⟨[], none, [], [], .empty⟩⟩

/-- `Searcher::load_all_documents`: keep the stored documents whose
lowercased `lang` field equals the requested language, decoding the
`line_end_indices` blob and deserializing the scope graph. -/
def load_all_documents (docs : List IndexedDoc) (lang : Str) : List ContentDocument :=
  docs.filterMap fun d =>
    if rustLower d.lang = lang then
      some { content := d.content
             lang := some lang
             relative_path := d.path
             line_end_indices := decodeU32s d.line_end_indices
             symbol_locations := d.symbol_locations }
    else none

/-- Modelled from the spec: `Path::extension()` — the part of the last
path component after its last dot, empty when there is none. -/
def extOf (p : Str) : Str :=
  let base := (p.splitOn 47).getLastD []
  if (base.splitOn 46).length ≤ 1 then [] else (base.splitOn 46).getLastD []

/-- `Searcher::detect_language`: extension lookup through the missing
`TSLanguage::from_extension` table (a parameter), with the
`plaintext` fallback. -/
def detect_language (fromExt : Str → Option Str) (p : Str) : Str :=
  (fromExt (extOf p)).getD (str "plaintext")

/-- A zero-based source position of the missing `text_range` module.
Modelled from the spec: TextRange start and end carry line, column and
byte. -/
structure Point where
  line : Nat
  column : Nat
  byte : Nat
deriving DecidableEq, Repr

/-- Modelled from the spec: a text range with start and end points. -/
structure TextRange where
  start : Point
  stop : Point
deriving DecidableEq, Repr

/-- Modelled from the spec: occurrence kind of the code-navigation
context. -/
inductive OccurrenceKind where
  | definition : OccurrenceKind
  | reference : OccurrenceKind
deriving DecidableEq, Repr

/-- Modelled from the spec: a pre-formatted snippet. -/
structure Snippet where
  data : Str
deriving DecidableEq, Repr

/-- Modelled from the spec: one definition or reference occurrence. -/
structure Occurrence where
  range : TextRange
  kind : OccurrenceKind
  snippet : Snippet
deriving DecidableEq, Repr

/-- Modelled from the spec: the per-file occurrence list returned by the
code-navigation context. -/
structure FileSymbols where
  file : Str
  data : List Occurrence
deriving DecidableEq, Repr

/-- The presentation adjustment of `token_info`: increment start and end
lines of every occurrence by one. -/
def adjustLines (fs : List FileSymbols) : List FileSymbols :=
  fs.map fun f =>
    { f with
      data := f.data.map fun o =>
        { o with
          range :=
            { start := { o.range.start with line := o.range.start.line + 1 }
              stop := { o.range.stop with line := o.range.stop.line + 1 } } } }

/-- `Searcher::token_info`: detect the language from the path extension,
materialize all documents of that language, locate the source document
by stored path (erroring when absent), convert the line and word span to
a byte range, run the cross-document navigation (`nav`, standing for the
missing `CodeNavigationContext::token_info`), and adjust lines for
presentation. -/
def token_info (fromExt : Str → Option Str)
    (nav : List ContentDocument → Nat → Nat → Nat → List FileSymbols)
    (docs : List IndexedDoc) (relativePath : Str)
    (line wordStart wordEnd : Nat) : Except String (List FileSymbols) :=
  let lang := rustLower (detect_language fromExt relativePath)
  let allDocs := load_all_documents docs lang
  match allDocs.findIdx? (fun d => d.relative_path = relativePath) with
  | none => .error "Source document not found"
  | some idx =>
    let doc := allDocs.getD idx default
    match line_word_to_byte_range doc.content doc.line_end_indices line wordStart wordEnd with
    | .error e => .error e
    | .ok (startByte, endByte) => .ok (adjustLines (nav allDocs idx startByte endByte))

/-! ### Orchestrator (`indexes.rs`) -/

/-- The observable steps of `Indexes::index`. -/
inductive IndexAction where
  | acquireLock : IndexAction
  | createWriter : IndexAction
  | runPass : IndexAction
  | commit : IndexAction
  | rollback : IndexAction
deriving DecidableEq, Repr

/-- `Indexes::index` (lines 106-112): lock the write mutex, obtain the
write handle, run the indexing pass; an error from the pass propagates
through the question-mark operator, otherwise commit (whose own result
is then propagated). `passResult` and `commitResult` abstract the two
fallible calls. -/
def indexes_index (passResult commitResult : Except Str Unit) :
    List IndexAction × Except Str Unit :=
  match passResult with
  | .error e => ([.acquireLock, .createWriter, .runPass], .error e)
  | .ok _ =>
    match commitResult with
    | .error e => ([.acquireLock, .createWriter, .runPass, .commit], .error e)
    | .ok _ => ([.acquireLock, .createWriter, .runPass, .commit], .ok ())

/-- The observable steps of `Indexer::create`. -/
inductive CreateAction where
  | openIndex : CreateAction
  | deleteIndexDir : CreateAction
deriving DecidableEq, Repr

/-- The schema-mismatch message matched by `Indexer::create`
(apostrophes written as code point 39). -/
def schemaMismatchText : Str :=
  str "Schema error: " ++ [39] ++ str "An index exists but the schema does not match." ++ [39]

/-- `Indexer::create` (lines 61-89): try to open or create the index;
when that fails and the error text contains the schema-mismatch
message, delete the index directory and retry once, returning the
retry outcome; any other error is surfaced without deleting.
`first` and `second` abstract the outcomes of the two `init_index`
attempts. -/
def indexer_create (first second : Except Str Unit) :
    List CreateAction × Except Str Unit :=
  match first with
  | .ok _ => ([.openIndex], .ok ())
  | .error e =>
    if containsSub e schemaMismatchText then
      ([.openIndex, .deleteIndexDir, .openIndex], second)
    else ([.openIndex], .error e)

/-! ### Claim C1 -/

/-- The stored document of seed scenario S4: a file containing
`Hello\nhello\n`, indexed as by `traverse_and_index_files`. -/
def helloDoc : IndexedDoc :=
  { path := str "/repo/hello.py"
    content := str "Hello\nhello\n"
    content_insensitive := rustLower (str "Hello\nhello\n")
    symbol_locations := .empty
    symbols := []
    line_end_indices := buildLineEndIndices (str "Hello\nhello\n")
    lang := str "Python"
    hash := str "" }

/-! ### Claim C4 -/

/-- Modelled from the spec: the `ignore`-crate matcher compiled from a
root `.gitignore` containing the single pattern `*.log` — it ignores any
relative path whose final component ends in `.log`. -/
def rootLogMatcher : List Str → GitMatch := fun rel =>
  if (str ".log").isSuffixOf (rel.getLastD []) then .ignoreMatch else .noMatch

/-- Modelled from the spec: the matcher compiled from `root/sub/.gitignore`
containing the single pattern `!keep.log` — it whitelists `keep.log`. -/
def subKeepMatcher : List Str → GitMatch := fun rel =>
  if rel = [str "keep.log"] then .whitelistMatch else .noMatch

/-- The gitignore list of seed scenario S3 after the depth-descending
sort of `load_gitignores` (walk order pushes the root entry first). -/
def exampleGitignores : List GitignoreEntry :=
  sortByDepthDesc
    [⟨[str "root"], rootLogMatcher⟩, ⟨[str "root", str "sub"], subKeepMatcher⟩]

/-- A concrete extension table for the C10 witness. -/
def pyFromExt : Str → Option Str := fun e =>
  if e = str "py" then some (str "Python") else none

/-- A concrete navigation function for the C10 witness. -/
def trivialNav : List ContentDocument → Nat → Nat → Nat → List FileSymbols :=
  fun _ _ _ _ => []

/-- The single stored document for the C10 witness. -/
def tokenInfoDoc : IndexedDoc :=
  { path := str "/repo/a.py"
    content := str "x=1\n"
    content_insensitive := rustLower (str "x=1\n")
    symbol_locations := .empty
    symbols := []
    line_end_indices := buildLineEndIndices (str "x=1\n")
    lang := str "Python"
    hash := str "" }

/-! ### Claim C2 -/

/-- The document the indexer writes for a file when starting from an
empty snapshot: `none` when the file is skipped (invalid UTF-8 or
plaintext language). -/
def producedDoc (ext : ExternalFns) (f : FsFile) : Option IndexedDoc :=
  match utf8Decode f.bytes with
  | none => none
  | some content =>
    if ext.detectLang f.path = str "plaintext" then none
    else some (mkIndexedDoc ext f.path content (sha256hex f.bytes) (ext.detectLang f.path))

/-- A concrete external-function bundle for the C2 witness. -/
def pyExtern : ExternalFns := ⟨fun _ => str "Python", fun _ _ => none⟩

/-- The stored document refuting the unrestricted superset claim:
content `x\nHello hello\n`, whose second line matches `hello` at byte 7
case-sensitively but at byte 1 after lowercasing. -/
def mixedDoc : IndexedDoc :=
  { path := str "/repo/mixed.py"
    content := str "x\nHello hello\n"
    content_insensitive := rustLower (str "x\nHello hello\n")
    symbol_locations := .empty
    symbols := []
    line_end_indices := buildLineEndIndices (str "x\nHello hello\n")
    lang := str "Python"
    hash := str "" }

/-- The result that `text_search("hello", true)` emits on `mixedDoc`. -/
def sensitiveHit : SearchResult :=
  { path := str "/repo/mixed.py"
    line_number := 2
    column := 7
    context := str "\nHello hello\n\n" }

/-! ## Theorems -/

theorem u8len_pos (c : Nat) : 1 ≤ u8len c := by
  unfold u8len
  repeat' split
  all_goals omega

theorem u8len_lowerChar (c : Nat) : u8len (lowerChar c) = u8len c := by
  unfold lowerChar u8len
  split
  · next h =>
    rw [if_pos (by omega), if_pos (by omega)]
  · rfl

theorem lowerChar_idem (c : Nat) : lowerChar (lowerChar c) = lowerChar c := by
  unfold lowerChar
  split
  · next h => rw [if_neg (by omega)]
  · rfl

theorem rustLower_idem (s : Str) : rustLower (rustLower s) = rustLower s := by
  unfold rustLower
  rw [List.map_map]
  exact List.map_congr_left fun c _ => lowerChar_idem c

theorem rustLower_eq_self_of_noUppercase {q : Str} (h : noUppercase q = true) :
    rustLower q = q := by
  induction q with
  | nil => rfl
  | cons c rest ih =>
    simp only [noUppercase, List.all_cons, Bool.and_eq_true] at h
    simp only [rustLower, List.map_cons]
    have h1 : lowerChar c = c := by
      unfold lowerChar
      have := h.1
      simp only [Bool.not_eq_eq_eq_not, Bool.not_true, decide_eq_false_iff_not] at this
      rw [if_neg this]
    have h2 : rustLower rest = rest := ih (by simpa [noUppercase] using h.2)
    rw [h1]
    simpa [rustLower] using h2

/-- C1: for the stored document with content `Hello\nhello\n`,
`text_search("hello", true)` returns exactly one result at line 2 as
claimed, but `text_search("hello", false)` also returns only the line-2
result: the window enumeration over `line_end_indices` starts at the
first newline offset, so the first line (bytes before the first
newline) is never examined, contradicting the claimed results at lines
1 and 2. -/
theorem text_search_skips_first_line :
    (text_search [helloDoc] (str "hello") true).map SearchResult.line_number = [2] ∧
    (text_search [helloDoc] (str "hello") false).map SearchResult.line_number = [2] := by
  decide

/-! ### Claim C3 -/

/-- C3 counterexample: when the indexing pass fails, `Indexes::index`
surfaces the error without ever invoking `rollback()` on the write
handle — the claim that rollback is invoked before the error is
surfaced is false on the code. -/
theorem index_error_no_rollback_counterexample :
    IndexAction.rollback ∉ (indexes_index (.error (str "walk failed")) (.ok ())).1 ∧
    (indexes_index (.error (str "walk failed")) (.ok ())).2 = .error (str "walk failed") :=
  ⟨by decide, rfl⟩

/-- C3 amended: whenever the indexing pass returns an error,
`Indexes::index` surfaces that error without invoking either `commit()`
or `rollback()` (the write handle is dropped, leaving the index at its
prior committed state); `commit()` is invoked exactly when the pass
succeeds, and `rollback()` is never invoked. -/
theorem index_error_propagates_without_rollback :
    ∀ (passResult commitResult : Except Str Unit),
      (∀ e, passResult = .error e →
        indexes_index passResult commitResult =
          ([.acquireLock, .createWriter, .runPass], .error e)) ∧
      (∀ u, passResult = .ok u →
        (indexes_index passResult commitResult).2 = commitResult) ∧
      IndexAction.rollback ∉ (indexes_index passResult commitResult).1 ∧
      (IndexAction.commit ∈ (indexes_index passResult commitResult).1 ↔
        passResult = .ok ()) := by
  intro passResult commitResult
  rcases passResult with e | u
  · refine ⟨fun e2 he => ?_, fun u hu => by simp at hu, by simp [indexes_index], ?_⟩
    · cases he; rfl
    · simp only [indexes_index]
      constructor
      · intro h
        simp at h
      · intro h
        simp at h
  · rcases commitResult with e2 | u2 <;>
      refine ⟨fun e3 he => by simp at he, fun u3 hu => rfl, by simp [indexes_index],
        by simp [indexes_index]⟩

/-- Witness for the amended C3 theorem at a concrete failing pass. -/
theorem index_error_propagates_without_rollback_witness :
    indexes_index (.error (str "io error")) (.ok ()) =
      ([.acquireLock, .createWriter, .runPass], .error (str "io error")) :=
  (index_error_propagates_without_rollback (.error (str "io error")) (.ok ())).1
    (str "io error") rfl

/-! ### Claim C7 -/

/-- C7: `Indexer::create` recovers from a schema mismatch exactly once —
a first-attempt error whose text contains the schema-mismatch message
causes one directory deletion and one retry whose outcome (success or
error) is returned; a successful first attempt returns at once, and any
other first-attempt error is surfaced without deleting the directory. -/
theorem indexer_create_schema_mismatch_retry :
    ∀ (first second : Except Str Unit),
      (∀ u, first = .ok u → indexer_create first second = ([.openIndex], .ok ())) ∧
      (∀ e, first = .error e → containsSub e schemaMismatchText = true →
        indexer_create first second = ([.openIndex, .deleteIndexDir, .openIndex], second)) ∧
      (∀ e, first = .error e → containsSub e schemaMismatchText = false →
        indexer_create first second = ([.openIndex], .error e)) := by
  intro first second
  rcases first with e | u
  · refine ⟨fun u hu => by simp at hu, fun e2 he hc => ?_, fun e2 he hc => ?_⟩
    · cases he
      simp [indexer_create, hc]
    · cases he
      simp [indexer_create, hc]
  · exact ⟨fun u2 hu => rfl, fun e he hc => by simp at he, fun e he hc => by simp at he⟩

/-- Witness for the C7 theorem: a first attempt failing with the
schema-mismatch message leads to delete-and-retry, returning the
retry outcome. -/
theorem indexer_create_schema_mismatch_retry_witness :
    indexer_create (.error schemaMismatchText) (.ok ()) =
      ([.openIndex, .deleteIndexDir, .openIndex], .ok ()) :=
  (indexer_create_schema_mismatch_retry (.error schemaMismatchText) (.ok ())).2.1
    schemaMismatchText rfl (by decide)

/-- C4: `is_ignored` scans the depth-sorted gitignore list and returns
the verdict of the first entry that decides the path (directory prefix
and a non-`None` match), defaulting to false — stated as equality with
the spec wording `specIgnoreDecision` — and on the S3 tree
(`root/.gitignore` with `*.log`, `root/sub/.gitignore` with
`!keep.log`) the file `root/a.log` is ignored while `root/sub/keep.log`
is not. -/
theorem is_ignored_first_match_decides :
    (∀ (entries : List GitignoreEntry) (p : List Str),
      is_ignored entries p = specIgnoreDecision entries p) ∧
    is_ignored exampleGitignores [str "root", str "a.log"] = true ∧
    is_ignored exampleGitignores [str "root", str "sub", str "keep.log"] = false := by
  refine ⟨fun entries p => ?_, by decide, by decide⟩
  induction entries with
  | nil => rfl
  | cons e rest ih =>
    simp only [is_ignored, specIgnoreDecision]
    by_cases hp : e.dir.isPrefixOf p
    · cases hm : e.matcher (p.drop e.dir.length) <;>
        simp [hp, hm, decidesPath, List.find?, specIgnoreDecision, ih]
    · simp [hp, decidesPath, List.find?, specIgnoreDecision, ih]

/-! ### Claim C9 -/

/-- C9: case-insensitive text search is insensitive to the letter case
of the query — `text_search(q, false)` equals
`text_search(lowercase(q), false)` for every query and every store,
because the query is lowercased before parsing and matched against the
lowercased content field (lowercasing modelled over ASCII). -/
theorem text_search_query_lowercasing :
    ∀ (docs : List IndexedDoc) (q : Str),
      text_search docs q false = text_search docs (rustLower q) false := by
  intro docs q
  simp only [text_search, Bool.false_eq_true, if_false, rustLower_idem]

/-! ### Claim C10 -/

/-- C10: `token_info` returns the error `Source document not found`
whenever no indexed document of the language detected from the path
extension has a stored path equal to the given path; the lookup happens
before any validation of the line and column arguments, so the error
appears for every line and word span, valid or not. -/
theorem token_info_unknown_path_error :
    ∀ (fromExt : Str → Option Str)
      (nav : List ContentDocument → Nat → Nat → Nat → List FileSymbols)
      (docs : List IndexedDoc) (relativePath : Str) (line wordStart wordEnd : Nat),
      (∀ d ∈ load_all_documents docs (rustLower (detect_language fromExt relativePath)),
        d.relative_path ≠ relativePath) →
      token_info fromExt nav docs relativePath line wordStart wordEnd =
        .error "Source document not found" := by
  intro fromExt nav docs relativePath line wordStart wordEnd h
  unfold token_info
  have hnone :
      (load_all_documents docs (rustLower (detect_language fromExt relativePath))).findIdx?
        (fun d => d.relative_path = relativePath) = none := by
    rw [List.findIdx?_eq_none_iff]
    intro d hd
    simpa using h d hd
  simp only [hnone]

/-- Witness for the C10 theorem: querying a path that is not stored
(with an out-of-range line number as well) yields the source-document
error. -/
theorem token_info_unknown_path_error_witness :
    token_info pyFromExt trivialNav [tokenInfoDoc] (str "/repo/b.py") 99 5 3 =
      .error "Source document not found" :=
  token_info_unknown_path_error pyFromExt trivialNav [tokenInfoDoc] (str "/repo/b.py") 99 5 3
    (by decide)

/-! ### Claim C8 -/

/-- C8: `line_word_to_byte_range` errors exactly when the 1-based line
number is 0 or exceeds the number of line-end entries, or the word span
is non-positive, or the word end exceeds the character count of the
addressed line; otherwise it returns the line start byte offset plus the
summed UTF-8 widths of the first `word_start` (resp. `word_end`)
characters of the line. Stated over well-formed `line_end_indices`
(strictly increasing, terminated by the content byte length). -/
theorem line_word_to_byte_range_spec :
    ∀ (content : Str) (les : List Nat) (ln ws we : Nat),
      List.Chain' (· < ·) les → les.getLast? = some (utf8Len content) →
      ((∃ e, line_word_to_byte_range content les ln ws we = .error e) ↔
        (ln = 0 ∨ les.length < ln ∨ we ≤ ws ∨ (lineSlice content les ln).length < we)) ∧
      ((ln ≠ 0 ∧ ¬les.length < ln ∧ ¬we ≤ ws ∧ ¬(lineSlice content les ln).length < we) →
        line_word_to_byte_range content les ln ws we =
          .ok (lineStartByte les ln + utf8Len ((lineSlice content les ln).take ws),
               lineStartByte les ln + utf8Len ((lineSlice content les ln).take we))) := by
  intro content les ln ws we _ _
  unfold line_word_to_byte_range
  by_cases h1 : ln = 0 ∨ les.length < ln
  · rw [if_pos h1]
    refine ⟨⟨fun _ => by tauto, fun _ => ⟨_, rfl⟩⟩, fun hc => ?_⟩
    rcases h1 with h | h
    · exact absurd h hc.1
    · exact absurd h hc.2.1
  · rw [if_neg h1]
    by_cases h2 : we ≤ ws ∨ (lineSlice content les ln).length < we
    · rw [if_pos h2]
      refine ⟨⟨fun _ => by tauto, fun _ => ⟨_, rfl⟩⟩, fun hc => ?_⟩
      rcases h2 with h | h
      · exact absurd h hc.2.2.1
      · exact absurd h hc.2.2.2
    · rw [if_neg h2]
      refine ⟨⟨fun ⟨e, he⟩ => by simp at he, fun hc => ?_⟩, fun _ => rfl⟩
      exact absurd hc (by tauto)

/-- Witness for the C8 theorem on content `ab\ncd` with line-end
entries `[2, 5]`: the word span (0,1) on line 2 resolves to bytes
(3, 4). -/
theorem line_word_to_byte_range_spec_witness :
    line_word_to_byte_range (str "ab\ncd") [2, 5] 2 0 1 =
      .ok (lineStartByte [2, 5] 2 + utf8Len ((lineSlice (str "ab\ncd") [2, 5] 2).take 0),
           lineStartByte [2, 5] 2 + utf8Len ((lineSlice (str "ab\ncd") [2, 5] 2).take 1)) :=
  (line_word_to_byte_range_spec (str "ab\ncd") [2, 5] 2 0 1
    (by simp [List.chain'_cons]) (by decide)).2 (by decide)

/-! ### Claim C5 -/

theorem utf8Len_cons (c : Nat) (s : Str) : utf8Len (c :: s) = u8len c + utf8Len s := by
  simp [utf8Len]

theorem newlinePositionsAux_bounds (s : Str) :
    ∀ (off x : Nat), x ∈ newlinePositionsAux s off → off ≤ x ∧ x < off + utf8Len s := by
  induction s with
  | nil => intro off x hx; simp [newlinePositionsAux] at hx
  | cons c rest ih =>
    intro off x hx
    rw [utf8Len_cons]
    by_cases hc : c = 10
    · rw [newlinePositionsAux, if_pos hc] at hx
      rcases List.mem_cons.1 hx with h | h
      · subst h
        have := u8len_pos c
        omega
      · have := ih (off + u8len c) x h
        omega
    · rw [newlinePositionsAux, if_neg hc] at hx
      have := ih (off + u8len c) x hx
      omega

theorem newlinePositionsAux_chain (s : Str) :
    ∀ (off : Nat), List.Chain' (· < ·) (newlinePositionsAux s off ++ [off + utf8Len s]) := by
  induction s with
  | nil =>
    intro off
    simp [newlinePositionsAux]
  | cons c rest ih =>
    intro off
    rw [utf8Len_cons]
    by_cases hc : c = 10
    · rw [newlinePositionsAux, if_pos hc]
      have harr : off + (u8len c + utf8Len rest) = (off + u8len c) + utf8Len rest := by omega
      rw [List.cons_append, harr]
      refine List.chain'_cons'.2 ⟨?_, ih (off + u8len c)⟩
      intro y hy
      have hpos := u8len_pos c
      rcases hx : newlinePositionsAux rest (off + u8len c) with _ | ⟨a, as⟩
      · rw [hx] at hy
        simp only [List.nil_append, List.head?_cons, Option.mem_some_iff] at hy
        omega
      · rw [hx] at hy
        simp only [List.cons_append, List.head?_cons, Option.mem_some_iff] at hy
        have ha : a ∈ newlinePositionsAux rest (off + u8len c) := by
          rw [hx]; exact List.mem_cons_self _ _
        have := (newlinePositionsAux_bounds rest (off + u8len c) a ha).1
        omega
    · rw [newlinePositionsAux, if_neg hc]
      have harr : off + (u8len c + utf8Len rest) = (off + u8len c) + utf8Len rest := by omega
      rw [harr]
      exact ih (off + u8len c)

theorem newlinePositionsAux_length (s : Str) :
    ∀ (off : Nat), (newlinePositionsAux s off).length = s.count 10 := by
  induction s with
  | nil => intro off; simp [newlinePositionsAux]
  | cons c rest ih =>
    intro off
    by_cases hc : c = 10
    · rw [newlinePositionsAux, if_pos hc]
      subst hc
      simp [ih, List.count_cons]
    · rw [newlinePositionsAux, if_neg hc]
      rw [List.count_cons]
      simp only [ih]
      have h2 : ¬(10 = c) := fun h => hc h.symm
      simp [h2, hc]

theorem decodeU32s_leBytes32_append (n : Nat) (r : List Nat) :
    decodeU32s (leBytes32 n ++ r) = n % 4294967296 :: decodeU32s r := by
  simp only [leBytes32, List.cons_append, List.nil_append, decodeU32s]
  congr 1
  omega

theorem decodeU32s_build (l : List Nat) (m : Nat) :
    decodeU32s (l.flatMap (fun i => leBytes32 (w32 i)) ++ leBytes32 (w32 m)) =
      l.map w32 ++ [w32 m] := by
  induction l with
  | nil =>
    simp only [List.flatMap_nil, List.nil_append, List.map_nil]
    rw [show leBytes32 (w32 m) = leBytes32 (w32 m) ++ [] by simp,
      decodeU32s_leBytes32_append]
    simp [decodeU32s, w32, Nat.mod_mod_of_dvd]
  | cons x xs ih =>
    simp only [List.flatMap_cons, List.map_cons, List.append_assoc]
    rw [decodeU32s_leBytes32_append]
    simp only [List.append_assoc] at ih
    rw [ih]
    congr 1
    simp [w32]

/-- C5: the stored `line_end_indices` blob consists of the little-endian
32-bit byte offsets of every newline in the content, in strictly
increasing order, followed by a final entry equal to the total byte
length of the content; its size is `(newline_count + 1) * 4` bytes
(stated for contents below 4 GiB, where the `as u32` casts are exact). -/
theorem line_end_indices_wellformed :
    ∀ (content : Str), utf8Len content < 4294967296 →
      (buildLineEndIndices content).length = (content.count 10 + 1) * 4 ∧
      decodeU32s (buildLineEndIndices content) =
        newlinePositions content ++ [utf8Len content] ∧
      List.Chain' (· < ·) (newlinePositions content ++ [utf8Len content]) := by
  intro content hlt
  have hbounds := newlinePositionsAux_bounds content 0
  refine ⟨?_, ?_, ?_⟩
  · have hlen : ∀ (l : List Nat),
        (l.flatMap fun i => leBytes32 (w32 i)).length = l.length * 4 := by
      intro l
      induction l with
      | nil => simp
      | cons x xs ih =>
        rw [List.flatMap_cons, List.length_append, ih]
        simp only [leBytes32, List.length_cons, List.length_nil]
        omega
    rw [buildLineEndIndices, List.length_append, hlen]
    rw [newlinePositions, newlinePositionsAux_length]
    simp only [leBytes32, List.length_cons, List.length_nil]
    ring
  · rw [buildLineEndIndices, decodeU32s_build]
    have hmap : (newlinePositions content).map w32 = newlinePositions content := by
      conv_rhs => rw [← List.map_id (newlinePositions content)]
      apply List.map_congr_left
      intro x hx
      have := hbounds x hx
      simp only [w32, id]
      omega
    rw [hmap, show w32 (utf8Len content) = utf8Len content from by
      simp only [w32]; omega]
  · have := newlinePositionsAux_chain content 0
    simpa [newlinePositions] using this

/-- Witness for the C5 theorem on content `x=1\n`. -/
theorem line_end_indices_wellformed_witness :
    (buildLineEndIndices (str "x=1\n")).length = ((str "x=1\n").count 10 + 1) * 4 ∧
    decodeU32s (buildLineEndIndices (str "x=1\n")) =
      newlinePositions (str "x=1\n") ++ [utf8Len (str "x=1\n")] ∧
    List.Chain' (· < ·) (newlinePositions (str "x=1\n") ++ [utf8Len (str "x=1\n")]) :=
  line_end_indices_wellformed (str "x=1\n") (by decide)

theorem producedDoc_path {ext : ExternalFns} {f : FsFile} {d : IndexedDoc}
    (h : producedDoc ext f = some d) : d.path = f.path := by
  unfold producedDoc at h
  split at h
  · exact absurd h (by simp)
  · split at h
    · exact absurd h (by simp)
    · cases h
      rfl

theorem producedDoc_hash {ext : ExternalFns} {f : FsFile} {d : IndexedDoc}
    (h : producedDoc ext f = some d) : d.hash = sha256hex f.bytes := by
  unfold producedDoc at h
  split at h
  · exact absurd h (by simp)
  · split at h
    · exact absurd h (by simp)
    · cases h
      rfl

theorem indexFile_empty_snapshot (ext : ExternalFns) (f : FsFile) :
    indexFile ext [] f =
      match producedDoc ext f with
      | none => []
      | some d => [.addDocument d] := by
  unfold indexFile producedDoc
  cases hdec : utf8Decode f.bytes with
  | none => rfl
  | some content =>
    simp only [lookupPath]
    unfold indexFileRest
    by_cases hpl : ext.detectLang f.path = str "plaintext" <;> simp [hpl]

theorem indexPass_empty_adds (ext : ExternalFns) (files : List FsFile) :
    indexPass ext [] files =
      (files.filterMap (producedDoc ext)).map WriteOp.addDocument := by
  induction files with
  | nil => rfl
  | cons f rest ih =>
    rw [indexPass, List.flatMap_cons, indexFile_empty_snapshot, List.filterMap_cons]
    cases producedDoc ext f with
    | none => simpa [indexPass] using ih
    | some d => simp only [List.map_cons, List.cons_append, List.nil_append]
                exact congrArg _ (by simpa [indexPass] using ih)

theorem applyOps_adds (ds : List IndexedDoc) :
    ∀ (store : List IndexedDoc),
      applyOps store (ds.map WriteOp.addDocument) = store ++ ds := by
  induction ds with
  | nil => intro store; simp [applyOps]
  | cons d rest ih =>
    intro store
    rw [List.map_cons, applyOps, List.foldl_cons]
    have : applyOp store (WriteOp.addDocument d) = store ++ [d] := rfl
    rw [this]
    have := ih (store ++ [d])
    rw [applyOps] at this
    rw [this, List.append_assoc]
    rfl

theorem flatMap_nil_of_all {α β : Type} (l : List α) (g : α → List β)
    (h : ∀ x ∈ l, g x = []) : l.flatMap g = [] := by
  induction l with
  | nil => rfl
  | cons a as ih =>
    rw [List.flatMap_cons, h a (List.mem_cons_self a as), List.nil_append]
    exact ih fun x hx => h x (List.mem_cons_of_mem a hx)

theorem lookupPath_eq_none_of (p : Str) (l : List (Str × Str))
    (h : ∀ e ∈ l, e.1 ≠ p) : lookupPath p l = none := by
  induction l with
  | nil => rfl
  | cons e rest ih =>
    rw [lookupPath, if_neg (h e (List.mem_cons_self e rest))]
    exact ih fun x hx => h x (List.mem_cons_of_mem e hx)

theorem mem_keys_existingDocs {ext : ExternalFns} {rest : List FsFile}
    {e : Str × Str} (he : e ∈ existingDocsOf (rest.filterMap (producedDoc ext))) :
    e.1 ∈ rest.map FsFile.path := by
  unfold existingDocsOf at he
  rcases List.mem_map.1 he with ⟨d, hd, hed⟩
  rcases List.mem_filterMap.1 hd with ⟨f, hf, hpd⟩
  rw [← hed]
  exact List.mem_map.2 ⟨f, hf, (producedDoc_path hpd).symm⟩

theorem lookup_existingDocs (ext : ExternalFns) :
    ∀ (files : List FsFile), (files.map FsFile.path).Nodup →
      ∀ f ∈ files,
        lookupPath f.path (existingDocsOf (files.filterMap (producedDoc ext))) =
          (producedDoc ext f).map IndexedDoc.hash := by
  intro files
  induction files with
  | nil => intro _ f hf; simp at hf
  | cons g rest ih =>
    intro hnd f hf
    rw [List.map_cons, List.nodup_cons] at hnd
    rcases List.mem_cons.1 hf with hfg | hfr
    · subst hfg
      cases hpd : producedDoc ext f with
      | none =>
        rw [List.filterMap_cons, hpd]
        simp only [Option.map_none']
        exact lookupPath_eq_none_of _ _ fun e he hep =>
          hnd.1 (by rw [← hep]; exact mem_keys_existingDocs he)
      | some d =>
        rw [List.filterMap_cons, hpd]
        unfold existingDocsOf
        rw [List.map_cons, lookupPath, if_pos (producedDoc_path hpd)]
        simp [producedDoc_hash hpd, hpd]
    · have hne : f.path ≠ g.path := by
        intro hcontra
        exact hnd.1 (by rw [← hcontra]; exact List.mem_map.2 ⟨f, hfr, rfl⟩)
      cases hpd : producedDoc ext g with
      | none =>
        rw [List.filterMap_cons, hpd]
        exact ih hnd.2 f hfr
      | some d =>
        rw [List.filterMap_cons, hpd]
        unfold existingDocsOf
        rw [List.map_cons, lookupPath,
          if_neg (by rw [producedDoc_path hpd]; exact fun h => hne h.symm)]
        exact ih hnd.2 f hfr

theorem indexFile_second_pass (ext : ExternalFns) (files : List FsFile)
    (hnd : (files.map FsFile.path).Nodup) (f : FsFile) (hf : f ∈ files) :
    indexFile ext (existingDocsOf (applyOps [] (indexPass ext [] files))) f = [] := by
  rw [indexPass_empty_adds, applyOps_adds, List.nil_append]
  have hl := lookup_existingDocs ext files hnd f hf
  cases hdec : utf8Decode f.bytes with
  | none => simp [indexFile, hdec]
  | some content =>
    by_cases hpl : ext.detectLang f.path = str "plaintext"
    · have hpd : producedDoc ext f = none := by
        unfold producedDoc; rw [hdec]; simp [hpl]
      rw [hpd] at hl
      simp only [Option.map_none'] at hl
      simp [indexFile, hdec, hl, indexFileRest, hpl]
    · have hpd : producedDoc ext f =
          some (mkIndexedDoc ext f.path content (sha256hex f.bytes)
            (ext.detectLang f.path)) := by
        unfold producedDoc; rw [hdec]; simp [hpl]
      rw [hpd] at hl
      simp only [Option.map_some'] at hl
      have hh : (mkIndexedDoc ext f.path content (sha256hex f.bytes)
          (ext.detectLang f.path)).hash = sha256hex f.bytes := rfl
      rw [hh] at hl
      simp [indexFile, hdec, hl]

/-- C2: indexing is idempotent by content hash — (i) a file whose
canonical path maps in the `existing_docs` snapshot to the SHA-256 of
its current bytes causes no write operation at all; (ii) re-indexing an
unchanged tree against the snapshot produced by a completed first pass
performs zero write operations; (iii) when the stored hash differs, the
prior document is deleted by path term before anything is added. -/
theorem index_idempotent_by_hash :
    (∀ (ext : ExternalFns) (existing : List (Str × Str)) (f : FsFile) (content : List Nat),
      utf8Decode f.bytes = some content →
      lookupPath f.path existing = some (sha256hex f.bytes) →
      indexFile ext existing f = []) ∧
    (∀ (ext : ExternalFns) (files : List FsFile),
      (files.map FsFile.path).Nodup →
      indexPass ext (existingDocsOf (applyOps [] (indexPass ext [] files))) files = []) ∧
    (∀ (ext : ExternalFns) (existing : List (Str × Str)) (f : FsFile) (content : List Nat)
      (oldHash : Str),
      utf8Decode f.bytes = some content →
      lookupPath f.path existing = some oldHash →
      oldHash ≠ sha256hex f.bytes →
      ∃ rest, indexFile ext existing f = .deleteTerm f.path :: rest) := by
  refine ⟨?_, ?_, ?_⟩
  · intro ext existing f content hdec hlook
    unfold indexFile
    rw [hdec, hlook]
    simp
  · intro ext files hnd
    exact flatMap_nil_of_all files _ (indexFile_second_pass ext files hnd)
  · intro ext existing f content oldHash hdec hlook hne
    refine ⟨indexFileRest ext f.path content (sha256hex f.bytes), ?_⟩
    unfold indexFile
    rw [hdec, hlook]
    simp [hne]

/-- Witness for the C2 theorem: re-indexing the one-file tree of seed
scenario S1 (`a.py` containing `x=1\n`) after a completed first pass
performs zero write operations. -/
theorem index_idempotent_by_hash_witness :
    indexPass pyExtern
      (existingDocsOf (applyOps []
        (indexPass pyExtern [] [⟨str "/repo/a.py", str "x=1\n"⟩])))
      [⟨str "/repo/a.py", str "x=1\n"⟩] = [] :=
  index_idempotent_by_hash.2.1 pyExtern [⟨str "/repo/a.py", str "x=1\n"⟩] (by decide)

/-! ### Claim C6 -/

theorem findSubAux_eq (l q : Str) (off : Nat) :
    findSubAux l q off =
      if q.isPrefixOf l then some off
      else
        match l with
        | [] => none
        | c :: rest => findSubAux rest q (off + u8len c) := by
  cases l <;> rfl

theorem isPrefixOf_rustLower : ∀ (p l : Str), p.isPrefixOf l = true →
    (rustLower p).isPrefixOf (rustLower l) = true := by
  intro p
  induction p with
  | nil => intro l _; cases l <;> rfl
  | cons a as ih =>
    intro l h
    cases l with
    | nil => simp [List.isPrefixOf] at h
    | cons b bs =>
      simp only [List.isPrefixOf, Bool.and_eq_true, beq_iff_eq] at h
      simp only [rustLower, List.map_cons, List.isPrefixOf, Bool.and_eq_true, beq_iff_eq]
      exact ⟨by rw [h.1], by simpa [rustLower] using ih bs h.2⟩

theorem findSubAux_rustLower_isSome : ∀ (l q : Str) (o o2 : Nat),
    (findSubAux l q o).isSome = true →
    (findSubAux (rustLower l) (rustLower q) o2).isSome = true := by
  intro l
  induction l with
  | nil =>
    intro q o o2 h
    rw [findSubAux_eq] at h
    split at h
    · next hp =>
      rw [findSubAux_eq, if_pos (isPrefixOf_rustLower q [] hp)]
      rfl
    · simp at h
  | cons c rest ih =>
    intro q o o2 h
    rw [findSubAux_eq] at h
    by_cases hp : q.isPrefixOf (c :: rest)
    · have hp2 := isPrefixOf_rustLower q (c :: rest) hp
      rw [findSubAux_eq, if_pos hp2]
      rfl
    · rw [if_neg hp] at h
      simp only [rustLower, List.map_cons]
      rw [findSubAux_eq]
      split
      · rfl
      · have := ih q (o + u8len c) (o2 + u8len (lowerChar c)) h
        simpa [rustLower] using this

theorem containsSub_rustLower {l q : Str} (h : containsSub l q = true) :
    containsSub (rustLower l) (rustLower q) = true := by
  unfold containsSub findSub at h ⊢
  exact findSubAux_rustLower_isSome l q 0 0 h

theorem sliceBytesAux_rustLower : ∀ (s : Str) (a b off : Nat),
    sliceBytesAux (rustLower s) a b off = rustLower (sliceBytesAux s a b off) := by
  intro s
  induction s with
  | nil => intro a b off; rfl
  | cons c rest ih =>
    intro a b off
    simp only [rustLower, List.map_cons]
    rw [sliceBytesAux, sliceBytesAux]
    by_cases hb : b ≤ off
    · rw [if_pos hb, if_pos hb]
      rfl
    · rw [if_neg hb, if_neg hb]
      by_cases ha : a ≤ off
      · rw [if_pos ha, if_pos ha, u8len_lowerChar, List.map_cons]
        exact congrArg _ (by simpa [rustLower] using ih a b (off + u8len c))
      · rw [if_neg ha, if_neg ha, u8len_lowerChar]
        simpa [rustLower] using ih a b (off + u8len c)

theorem sliceBytes_rustLower (s : Str) (a b : Nat) :
    sliceBytes (rustLower s) a b = rustLower (sliceBytes s a b) :=
  sliceBytesAux_rustLower s a b 0

theorem searchDocLines_insensitive_cover (q p cf nc : Str) (les : List Nat)
    (hq : rustLower q = q) (r : SearchResult)
    (hr : r ∈ searchDocLines q p cf nc les) :
    ∃ r2 ∈ searchDocLines q p (rustLower cf) nc les,
      r2.path = r.path ∧ r2.line_number = r.line_number ∧ r2.context = r.context := by
  unfold searchDocLines at hr ⊢
  rcases List.mem_filterMap.1 hr with ⟨iw, hmem, hF⟩
  rcases hfind : findSub (sliceBytes cf iw.2.1 iw.2.2) q with _ | col
  · simp only [hfind] at hF
    exact absurd hF (by simp)
  · simp only [hfind, Option.some_inj] at hF
    have hsome : (findSub (sliceBytes (rustLower cf) iw.2.1 iw.2.2) q).isSome = true := by
      rw [sliceBytes_rustLower]
      have : (findSubAux (sliceBytes cf iw.2.1 iw.2.2) q 0).isSome = true := by
        unfold findSub at hfind
        rw [hfind]
        rfl
      have h2 := findSubAux_rustLower_isSome (sliceBytes cf iw.2.1 iw.2.2) q 0 0 this
      rw [hq] at h2
      exact h2
    rcases Option.isSome_iff_exists.1 hsome with ⟨col2, hcol2⟩
    refine ⟨{ path := p, line_number := iw.1 + 2, column := col2,
              context := contextOf nc les (iw.1 + 2) }, ?_, ?_, ?_, ?_⟩
    · exact List.mem_filterMap.2 ⟨iw, hmem, by simp only [hcol2]⟩
    · rw [← hF]
    · rw [← hF]
    · rw [← hF]

/-- C6 counterexample: for the lowercase query `hello` and a store
holding `mixedDoc`, the case-sensitive result (column 7, measured on
the original line) is not among the case-insensitive results (whose
column 1 is measured on the lowercased line), so
`text_search(q, false)` is not a superset of `text_search(q, true)`. -/
theorem text_search_superset_counterexample :
    noUppercase (str "hello") = true ∧
    sensitiveHit ∈ text_search [mixedDoc] (str "hello") true ∧
    sensitiveHit ∉ text_search [mixedDoc] (str "hello") false := by
  decide

/-- C6 amended: for a store of at most ten indexer-written documents
(so that the top-10 cut keeps every match, and `content_insensitive`
is the lowercased `content`) and a query without uppercase letters,
every result of `text_search(q, true)` has a counterpart in
`text_search(q, false)` agreeing on path, line number and context; only
the column may differ, being measured on the lowercased line. -/
theorem text_search_insensitive_superset_amended :
    ∀ (docs : List IndexedDoc) (q : Str),
      docs.length ≤ 10 →
      (∀ d ∈ docs, d.content_insensitive = rustLower d.content) →
      noUppercase q = true →
      ∀ r ∈ text_search docs q true, ∃ r2 ∈ text_search docs q false,
        r2.path = r.path ∧ r2.line_number = r.line_number ∧ r2.context = r.context := by
  intro docs q h10 hins hq r hr
  have hlq : rustLower q = q := rustLower_eq_self_of_noUppercase hq
  simp only [text_search, if_true, Bool.false_eq_true, if_false, hlq] at hr ⊢
  rcases List.mem_flatMap.1 hr with ⟨d, hd, hrd⟩
  have hdocs : d ∈ docs ∧ containsSub (fieldText true d) q = true :=
    List.mem_filter.1 (List.mem_of_mem_take hd)
  have hcontains : containsSub d.content q = true := by
    simpa [fieldText] using hdocs.2
  have hinsd : d.content_insensitive = rustLower d.content := hins d hdocs.1
  have hcontains2 : containsSub (fieldText false d) q = true := by
    have := containsSub_rustLower hcontains
    rw [hlq] at this
    simpa [fieldText, hinsd] using this
  have hdIns : d ∈ retrieveTop10 docs false q := by
    unfold retrieveTop10
    rw [List.take_of_length_le
      (le_trans (List.length_filter_le _ _) h10)]
    exact List.mem_filter.2 ⟨hdocs.1, hcontains2⟩
  have hfield : fieldText false d = rustLower (fieldText true d) := by
    simp [fieldText, hinsd]
  have hcover := searchDocLines_insensitive_cover q d.path (fieldText true d) d.content
    (decodeU32s d.line_end_indices) hlq r (by simpa [fieldText] using hrd)
  rcases hcover with ⟨r2, hr2mem, hr2⟩
  refine ⟨r2, List.mem_flatMap.2 ⟨d, hdIns, ?_⟩, hr2⟩
  rw [hfield]
  simpa [fieldText] using hr2mem

/-- Witness for the amended C6 theorem: the case-sensitive hit on
`mixedDoc` has a case-insensitive counterpart with the same path, line
number and context. -/
theorem text_search_insensitive_superset_amended_witness :
    ∃ r2 ∈ text_search [mixedDoc] (str "hello") false,
      r2.path = sensitiveHit.path ∧ r2.line_number = sensitiveHit.line_number ∧
      r2.context = sensitiveHit.context :=
  text_search_insensitive_superset_amended [mixedDoc] (str "hello") (by decide)
    (by decide) (by decide) sensitiveHit (by decide)

end CodeNav
